import Mathlib

/-!
Verification of the KCG deck-code decoder (`decodeKcgDeckCode` in `src/index.ts`).

The decoder is a pure function from a deck-code string to either a list of
card-identifier strings or an error.  The embedding below translates each
phase of the source function into a Lean definition operating on `List Char`
(a JS string is modelled by its character list).  JavaScript's `NaN` values,
which arise from `parseInt` on non-digit characters, are modelled by
`Option Nat` with `none` for `NaN`; comparisons against `NaN` are `false` in
JavaScript, which the `jsGe` helper and the explicit `none` branches mirror.
-/

namespace KCG

/-- The 64-symbol alphabet `CHAR_MAP` from `src/index.ts`. -/
def CHAR_MAP : String :=
  "AIQYgow5BJRZhpx6CKSaiqy7DLTbjrz8EMUcks19FNVdlt2!GOWemu3?HPXfnv4/"

/-- Expansion table A (`MAP1_EXPANSION` in the source). -/
def MAP1_EXPANSION : String := "eABCDEFGHI"

/-- Expansion table B (`MAP2_EXPANSION` in the source). -/
def MAP2_EXPANSION : String := "pJKLMNOPQR"

/-- First index of a character in a list, counting from `i`; `none` models
JavaScript's `indexOf` result `-1`. -/
def indexOfAux (c : Char) : List Char → Nat → Option Nat
  | [], _ => none
  | x :: xs, i => if x = c then some i else indexOfAux c xs (i + 1)

/-- `CHAR_MAP.indexOf(c)`, with `none` for `-1`. -/
def charIndexOf (c : Char) : Option Nat :=
  indexOfAux c CHAR_MAP.data 0

/-- The decimal digit character for `d ≤ 9` (code point `48 + d`). -/
def digitChar (d : Nat) : Char := Char.ofNat (48 + d)

/-- MSB-first base-`b` digit list of a positive number; the first argument is
fuel (structural recursion standing in for the terminating division loop of
`Number.prototype.toString`). -/
def natToBaseCore (b : Nat) : Nat → Nat → List Char
  | _, 0 => []
  | 0, _ => []
  | f + 1, n + 1 => natToBaseCore b f ((n + 1) / b) ++ [digitChar ((n + 1) % b)]

/-- `n.toString(b)` for a natural number: MSB-first digits, `"0"` for zero. -/
def natToBase (b n : Nat) : List Char :=
  if n = 0 then ['0'] else natToBaseCore b n n

/-- `n.toString()` for a JavaScript number that is an integer: a `'-'` sign
followed by the decimal digits when negative. -/
def jsIntToString (n : Int) : List Char :=
  if n < 0 then '-' :: natToBase 10 n.natAbs else natToBase 10 n.toNat

/-- `padStart(6, "0")` on a digit list. -/
def padStart6 (l : List Char) : List Char :=
  List.replicate (6 - l.length) '0' ++ l

/-- `parseInt(s, 2)` on a `'0'`/`'1'` string: MSB-first binary value. -/
def binToNat (l : List Char) : Nat :=
  l.foldl (fun acc c => acc * 2 + (if c = '1' then 1 else 0)) 0

/-- Phase 2 of the decoder (`src/index.ts` lines 84–93): number of trailing
bits to remove, computed from the 1-based alphabet position of the padding
descriptor. -/
def charsToRemoveFromPayloadEnd (indexFifthChar : Nat) : Nat :=
  let deckCodeFifthCharQuotient := indexFifthChar / 8
  let remainderFifthChar := indexFifthChar % 8
  if remainderFifthChar = 0 then 0
  else 8 - (deckCodeFifthCharQuotient + 1)

/-- Strategy P1 as the specification words it: `q = floor(N/8)`; if
`N mod 8 == 0` the trim is 0, otherwise `8 - (q + 1)`. -/
def strategyP1 (N : Nat) : Nat :=
  if N % 8 = 0 then 0 else 8 - (N / 8 + 1)

/-- Phase 3 (lines 96–102): `c.toString(2).padStart(6, "0")` of a payload
character's alphabet index.  An out-of-alphabet character would have index
`-1`, whose JavaScript rendering is `"0000-1"`; that branch is unreachable
after format validation. -/
def sixBits (c : Char) : List Char :=
  match charIndexOf c with
  | some i => padStart6 (natToBase 2 i)
  | none => "0000-1".data

/-- Phase 3: concatenation of the 6-bit encodings of the payload characters
after the padding descriptor, in input order. -/
def initialBinaryPayload (payload : List Char) : List Char :=
  (payload.map sixBits).flatten

/-- Phase 4 (lines 105–116): remove the last `trim` bits; an over-long trim
yields the empty bit string. -/
def processedBinaryPayload (bits : List Char) (trim : Nat) : List Char :=
  if trim > 0 ∧ bits.length ≥ trim then bits.take (bits.length - trim)
  else if trim > 0 then []
  else bits

/-- The 10-bit grouping loop of phase 5 (`for (i = 0; i + 10 <= len; i += 10)`),
fuelled structural recursion. -/
def tenBitGroupsCore : Nat → List Char → List (List Char)
  | 0, _ => []
  | f + 1, l => if 10 ≤ l.length then l.take 10 :: tenBitGroupsCore f (l.drop 10) else []

/-- Consecutive non-overlapping 10-bit groups of a bit string; a final
leftover shorter than 10 bits is discarded. -/
def tenBitGroups (l : List Char) : List (List Char) :=
  tenBitGroupsCore l.length l

/-- Lines 123–129: a 10-bit chunk read as a signed value — unsigned value
minus 1024 when the leading bit is `'1'`, the unsigned value otherwise. -/
def signedVal (g : List Char) : Int :=
  match g with
  | '1' :: _ => (binToNat g : Int) - 1024
  | _ => (binToNat g : Int)

/-- Lines 133–140: fixed-width formatting of `nVal` with `'X'` placeholders. -/
def formattedNVal (n : Int) : List Char :=
  if 0 ≤ n ∧ n < 10 then 'X' :: 'X' :: jsIntToString n
  else if 10 ≤ n ∧ n < 100 then 'X' :: jsIntToString n
  else jsIntToString n

/-- The 3-or-more-character token contributed by one 10-bit group
(`nVal = 500 - signedDecimalVal`). -/
def groupToken (g : List Char) : List Char :=
  formattedNVal (500 - signedVal g)

/-- Phase 5 (lines 119–142): concatenation of the group tokens. -/
def intermediateString (bits : List Char) : List Char :=
  ((tenBitGroups bits).map groupToken).flatten

/-- The right-to-left splice loop of lines 152–161, acting on the reversed
character list: remove up to `k` `'X'` characters scanning from the front of
the reversed list (i.e. from the end of the string). -/
def removeUpToXs : Nat → List Char → List Char
  | 0, l => l
  | _ + 1, [] => []
  | k + 1, c :: cs => if c = 'X' then removeUpToXs k cs else c :: removeUpToXs (k + 1) cs

/-- Phase 6 trimming (lines 148–170) for `r ≠ 0`: remove up to `r` `'X'`
characters scanning from the end, then splice the remaining shortfall off the
end of the result.  `removedXCount` is recovered as the length difference. -/
def adjustArray (r : Nat) (l : List Char) : List Char :=
  let rev := l.reverse
  let afterX := removeUpToXs r rev
  let removedXCount := rev.length - afterX.length
  let remainingCharsToRemove := r - removedXCount
  (afterX.drop remainingCharsToRemove).reverse

/-- Phase 6 (lines 145–171): adjust the digit string to a multiple-of-5 length. -/
def adjustedString (l : List Char) : List Char :=
  if l.length % 5 = 0 then l else adjustArray (l.length % 5) l

/-- Line 173: `adjustedString.replace(/X/g, "0")`. -/
def finalNumericString (l : List Char) : List Char :=
  (adjustedString l).map (fun c => if c = 'X' then '0' else c)

/-- The 5-character chunking loop of phase 7 (`for (i = 0; i < len; i += 5)`),
fuelled structural recursion; a trailing chunk shorter than 5 is kept, as
`substring` clamps. -/
def fiveChunksCore : Nat → List Char → List (List Char)
  | 0, _ => []
  | _ + 1, [] => []
  | f + 1, c :: cs => ((c :: cs).take 5) :: fiveChunksCore f ((c :: cs).drop 5)

/-- Consecutive 5-character chunks of the final numeric string. -/
def fiveChunks (l : List Char) : List (List Char) :=
  fiveChunksCore l.length l

/-- `parseInt(chunk[i], 10)` in JavaScript: a digit character parses to its
value, any other character (or a missing index) gives `NaN`, modelled `none`. -/
def parseAt (chunk : List Char) (i : Nat) : Option Nat :=
  match chunk[i]? with
  | some c => if c.isDigit then some (c.toNat - 48) else none
  | none => none

/-- JavaScript `a >= b` where `a` may be `NaN`: `false` for `NaN`. -/
def jsGe (a : Option Nat) (b : Nat) : Bool :=
  match a with
  | some v => b ≤ v
  | none => false

/-- Lines 184–241: decode one 5-character chunk to a card-id fragment and its
source `c5` digit, or `none` when the chunk is skipped.  Every JavaScript
comparison against a possibly-`NaN` value is translated so that the
comparison is `false` on `none`. -/
def decodeChunk (chunk : List Char) : Option (String × Nat) :=
  let c1 := parseAt chunk 0
  let c2 := parseAt chunk 1
  let c3 := parseAt chunk 2
  let c4 := parseAt chunk 3
  let c5 := parseAt chunk 4
  match c5 with
  | none => none
  | some v =>
    let expansionMap :=
      if 1 ≤ v ∧ v ≤ 4 then some MAP1_EXPANSION
      else if 6 ≤ v ∧ v ≤ 9 then some MAP2_EXPANSION
      else none
    match expansionMap with
    | none => none
    | some m =>
      if jsGe c1 m.length then none
      else
        let selectedCharFromMap : Option Char :=
          match c1 with
          | some i => m.data[i]?
          | none => none
        let expansion : String :=
          match selectedCharFromMap with
          | some ch => if ch = 'e' then "ex" else if ch = 'p' then "prm" else String.mk [ch]
          | none => "undefined"
        let ty : Option String :=
          match c2 with
          | some w =>
            if w = 1 then some "A" else if w = 2 then some "S"
            else if w = 3 then some "M" else if w = 4 then some "D" else none
          | none => none
        match ty with
        | none => none
        | some t =>
          let numberPart : Option Nat :=
            match c3, c4 with
            | some a, some b => some (a * 10 + b)
            | _, _ => none
          let skipNumber : Bool :=
            match numberPart with
            | some n => decide (n < 1) || decide (n > 50)
            | none => false
          if skipNumber then none
          else
            let numStr : String :=
              match numberPart with
              | some n => String.mk (natToBase 10 n)
              | none => "NaN"
            some (expansion ++ t ++ "-" ++ numStr, v)

/-- Phase 7: the surviving entries, in chunk order. -/
def decodedEntries (l : List Char) : List (String × Nat) :=
  (fiveChunks l).filterMap decodeChunk

/-- Phase 8 (lines 245–251): each fragment repeated `c5 % 5` times. -/
def deckListOutput (entries : List (String × Nat)) : List String :=
  (entries.map (fun e => List.replicate (e.2 % 5) e.1)).flatten

/-- The error class of the decoder: the four `throw` sites of
`decodeKcgDeckCode`. -/
inductive DecodeError where
  | badMarker
  | emptyPayload
  | invalidChar (c : Char)
  | badLength
deriving DecidableEq

/-- The full decoder `decodeKcgDeckCode` (lines 63–254). -/
def decode (deckCode : String) : Except DecodeError (List String) :=
  let chars := deckCode.data
  if chars.take 4 = "KCG-".data then
    match chars.drop 4 with
    | [] => .error .emptyPayload
    | c0 :: payload =>
      match (c0 :: payload).find? (fun c => (charIndexOf c).isNone) with
      | some c => .error (.invalidChar c)
      | none =>
        let indexFifthChar :=
          match charIndexOf c0 with
          | some i => i + 1
          | none => 0
        let trim := charsToRemoveFromPayloadEnd indexFifthChar
        let finalNum := finalNumericString (intermediateString
          (processedBinaryPayload (initialBinaryPayload payload) trim))
        if finalNum.length % 5 ≠ 0 then .error .badLength
        else .ok (deckListOutput (decodedEntries finalNum))
  else .error .badMarker

/-- Format validity as the specification words it: marker, non-empty
remainder, all remainder characters in the alphabet. -/
def formatValidB (s : String) : Bool :=
  decide (s.data.take 4 = "KCG-".data)
    && !(s.data.drop 4).isEmpty
    && (s.data.drop 4).all (fun c => (charIndexOf c).isSome)

/-- `true` exactly on successful decodes. -/
def isOkB (r : Except DecodeError (List String)) : Bool :=
  match r with
  | .ok _ => true
  | .error _ => false

/-- The card-identifier grammar `VALID_CARD_ID_RE` from `src/index.ts`
(line 10): `^(?:ex|prm|[A-R])[ASMD]-(?:[1-9]|[1-4][0-9]|50)$`. -/
def setSplit (l : List Char) : Option (List Char) :=
  match l with
  | 'e' :: 'x' :: rest => some rest
  | 'p' :: 'r' :: 'm' :: rest => some rest
  | c :: rest => if 'A' ≤ c ∧ c ≤ 'R' then some rest else none
  | [] => none

/-- The number alternative `[1-9]|[1-4][0-9]|50` of the grammar. -/
def numberOk (l : List Char) : Bool :=
  match l with
  | [c] => decide ('1' ≤ c ∧ c ≤ '9')
  | [a, b] => (decide ('1' ≤ a ∧ a ≤ '4') && b.isDigit) || (decide (a = '5') && decide (b = '0'))
  | _ => false

/-- Whole-string match against `VALID_CARD_ID_RE`. -/
def matchesCardIdRe (s : String) : Bool :=
  match setSplit s.data with
  | some (t :: '-' :: numPart) =>
    (decide (t = 'A') || decide (t = 'S') || decide (t = 'M') || decide (t = 'D')) && numberOk numPart
  | _ => false

/-- Number of `'X'` placeholder characters in a digit string. -/
def countX : List Char → Nat
  | [] => 0
  | c :: cs => (if c = 'X' then 1 else 0) + countX cs

/-- Keep the first `m` placeholder `'X'` characters of a string and delete
every later one; all non-placeholder characters are kept.  Deleting the `k`
rightmost placeholders of `l` is `keepFirstXs (countX l - k) l`. -/
def keepFirstXs : Nat → List Char → List Char
  | _, [] => []
  | m, c :: cs =>
    if c = 'X' then
      match m with
      | 0 => keepFirstXs 0 cs
      | m' + 1 => c :: keepFirstXs m' cs
    else c :: keepFirstXs m cs

/-- Policy T2 as the claim words it: preferentially drop placeholder
characters scanning from the end, up to `r` of them; only when fewer than `r`
placeholders exist does it fall back to dropping real trailing characters for
the remainder. -/
def policyT2Trim (r : Nat) (l : List Char) : List Char :=
  let cx := countX l
  if r ≤ cx then keepFirstXs (cx - r) l
  else (keepFirstXs 0 l).take ((keepFirstXs 0 l).length - (r - cx))

/-- Policy T2 followed by replacing every remaining placeholder with `'0'`. -/
def policyT2Final (r : Nat) (l : List Char) : List Char :=
  (policyT2Trim r l).map (fun c => if c = 'X' then '0' else c)

/-- The five-digit chunk semantics as the claim words it: `c5` selects the
table (1–4 Table A, 6–9 Table B, otherwise dropped), `c1` indexes it with
`'e' ↦ "ex"` and `'p' ↦ "prm"`, `c2` selects the type letter, and the number
`c3*10+c4` must lie in `[1,50]`; a surviving chunk carries its `c5`. -/
def chunkSpec (d1 d2 d3 d4 d5 : Nat) : Option (String × Nat) :=
  let table :=
    if 1 ≤ d5 ∧ d5 ≤ 4 then some MAP1_EXPANSION
    else if 6 ≤ d5 ∧ d5 ≤ 9 then some MAP2_EXPANSION
    else none
  match table with
  | none => none
  | some tbl =>
    match tbl.data[d1]? with
    | none => none
    | some sym =>
      let set : String := if sym = 'e' then "ex" else if sym = 'p' then "prm" else String.mk [sym]
      let ty : Option String :=
        if d2 = 1 then some "A" else if d2 = 2 then some "S"
        else if d2 = 3 then some "M" else if d2 = 4 then some "D" else none
      match ty with
      | none => none
      | some t =>
        let num := d3 * 10 + d4
        if 1 ≤ num ∧ num ≤ 50
        then some (set ++ t ++ "-" ++ String.mk (natToBase 10 num), d5)
        else none

/-- The payload after the padding descriptor, extracted from a whole deck
code. -/
def payloadOf (s : String) : List Char :=
  (s.data.drop 4).drop 1

/-- The 1-based alphabet position of the padding descriptor of a deck code
(`CHAR_MAP.indexOf(...) + 1`, with JavaScript's `-1` for a missing
character). -/
def descriptorIndexN (s : String) : Nat :=
  match s.data.drop 4 with
  | [] => 0
  | c0 :: _ =>
    match charIndexOf c0 with
    | some i => i + 1
    | none => 0

/-- The final numeric string a format-valid deck code reaches phase 7 with. -/
def finalNumericOf (s : String) : List Char :=
  finalNumericString (intermediateString (processedBinaryPayload
    (initialBinaryPayload (payloadOf s)) (charsToRemoveFromPayloadEnd (descriptorIndexN s))))

theorem processedBinaryPayload_eq_take (bits : List Char) (t : Nat) :
    processedBinaryPayload bits t = bits.take (bits.length - t) := by
  by_cases h1 : t > 0 ∧ bits.length ≥ t
  · simp [processedBinaryPayload, h1]
  · by_cases h2 : t > 0
    · have h0 : bits.length - t = 0 := by omega
      simp [processedBinaryPayload, h1, h2, h0]
    · have h0 : t = 0 := by omega
      subst h0
      simp [processedBinaryPayload]

theorem countX_append (a b : List Char) : countX (a ++ b) = countX a + countX b := by
  induction a with
  | nil => simp [countX]
  | cons c cs ih => simp [countX, ih]; omega

theorem countX_reverse (l : List Char) : countX l.reverse = countX l := by
  induction l with
  | nil => rfl
  | cons c cs ih => simp [countX, List.reverse_cons, countX_append, ih]; omega

theorem countX_le_length (l : List Char) : countX l ≤ l.length := by
  induction l with
  | nil => simp [countX]
  | cons c cs ih =>
    simp only [countX, List.length_cons]
    split <;> omega

theorem keepFirstXs_of_le (m : Nat) (l : List Char) (h : countX l ≤ m) :
    keepFirstXs m l = l := by
  induction l generalizing m with
  | nil => rfl
  | cons c cs ih =>
    by_cases hc : c = 'X'
    · subst hc
      simp [countX] at h
      obtain ⟨m', rfl⟩ : ∃ m', m = m' + 1 := ⟨m - 1, by omega⟩
      simp [keepFirstXs]
      exact ih m' (by omega)
    · simp [countX, hc] at h
      simp [keepFirstXs, hc]
      exact ih m (by omega)

theorem keepFirstXs_append (a b : List Char) (m : Nat) :
    keepFirstXs m (a ++ b) = keepFirstXs m a ++ keepFirstXs (m - countX a) b := by
  induction a generalizing m with
  | nil => simp [keepFirstXs, countX]
  | cons c cs ih =>
    by_cases hc : c = 'X'
    · subst hc
      have e2 : countX ('X' :: cs) = 1 + countX cs := by simp [countX]
      cases m with
      | zero => simp [keepFirstXs, countX, ih]
      | succ m' =>
        rw [e2]
        have e3 : m' + 1 - (1 + countX cs) = m' - countX cs := by omega
        simp [keepFirstXs, ih, e3]
    · have e2 : countX (c :: cs) = countX cs := by simp [countX, hc]
      rw [e2]
      simp [keepFirstXs, hc, ih]

theorem removeUpToXs_reverse (rl : List Char) (k : Nat) :
    (removeUpToXs k rl).reverse = keepFirstXs (countX rl - k) rl.reverse := by
  induction rl generalizing k with
  | nil => cases k <;> rfl
  | cons c cs ih =>
    cases k with
    | zero =>
      have h1 : removeUpToXs 0 (c :: cs) = c :: cs := rfl
      rw [h1, Nat.sub_zero, keepFirstXs_of_le _ _ (le_of_eq (countX_reverse _))]
    | succ k' =>
      by_cases hc : c = 'X'
      · subst hc
        have e1 : removeUpToXs (k' + 1) ('X' :: cs) = removeUpToXs k' cs := by
          simp [removeUpToXs]
        have e2 : countX ('X' :: cs) = 1 + countX cs := by simp [countX]
        rw [e1, ih k', e2, List.reverse_cons, keepFirstXs_append, countX_reverse cs]
        have e3 : 1 + countX cs - (k' + 1) = countX cs - k' := by omega
        rw [e3]
        have e4 : countX cs - k' - countX cs = 0 := by omega
        rw [e4]
        simp [keepFirstXs]
      · have e1 : removeUpToXs (k' + 1) (c :: cs) = c :: removeUpToXs (k' + 1) cs := by
          simp [removeUpToXs, hc]
        have e2 : countX (c :: cs) = countX cs := by simp [countX, hc]
        rw [e1, e2, List.reverse_cons, List.reverse_cons, ih (k' + 1),
          keepFirstXs_append, countX_reverse cs]
        have e5 : countX cs - (k' + 1) - countX cs = 0 := by omega
        rw [e5]
        simp [keepFirstXs, hc]

theorem removeUpToXs_length (k : Nat) (l : List Char) :
    (removeUpToXs k l).length = l.length - min k (countX l) := by
  induction l generalizing k with
  | nil => cases k <;> simp [removeUpToXs, countX]
  | cons c cs ih =>
    cases k with
    | zero => simp [removeUpToXs]
    | succ k' =>
      by_cases hc : c = 'X'
      · subst hc
        have e1 : removeUpToXs (k' + 1) ('X' :: cs) = removeUpToXs k' cs := by
          simp [removeUpToXs]
        have e2 : countX ('X' :: cs) = 1 + countX cs := by simp [countX]
        rw [e1, e2, ih k', List.length_cons]
        have := countX_le_length cs
        omega
      · have e1 : removeUpToXs (k' + 1) (c :: cs) = c :: removeUpToXs (k' + 1) cs := by
          simp [removeUpToXs, hc]
        have e2 : countX (c :: cs) = countX cs := by simp [countX, hc]
        rw [e1, e2, List.length_cons, ih (k' + 1), List.length_cons]
        have := countX_le_length cs
        omega

theorem adjustArray_eq_policy (r : Nat) (l : List Char) :
    adjustArray r l = policyT2Trim r l := by
  have hlen : (removeUpToXs r l.reverse).length = l.length - min r (countX l) := by
    rw [removeUpToXs_length, countX_reverse, List.length_reverse]
  have hrev : (removeUpToXs r l.reverse).reverse = keepFirstXs (countX l - r) l := by
    rw [removeUpToXs_reverse, countX_reverse, List.reverse_reverse]
  have hcx : countX l ≤ l.length := countX_le_length l
  simp only [adjustArray, policyT2Trim, List.length_reverse]
  by_cases hr : r ≤ countX l
  · rw [if_pos hr]
    have hrem : r - (l.length - (removeUpToXs r l.reverse).length) = 0 := by
      rw [hlen]; omega
    rw [hrem, List.drop_zero, hrev]
  · rw [if_neg hr]
    have h0 : countX l - r = 0 := by omega
    rw [h0] at hrev
    have hF : removeUpToXs r l.reverse = (keepFirstXs 0 l).reverse := by
      rw [← hrev, List.reverse_reverse]
    have hrem : r - (l.length - (removeUpToXs r l.reverse).length) = r - countX l := by
      rw [hlen]; omega
    rw [hrem, hF, ← List.rdrop_eq_reverse_drop_reverse]
    rfl

theorem adjustArray_length (r : Nat) (l : List Char) (hr : r ≤ l.length) :
    (adjustArray r l).length = l.length - r := by
  simp only [adjustArray, List.length_reverse, List.length_drop, removeUpToXs_length,
    countX_reverse]
  have := countX_le_length l
  omega

theorem finalNumericString_length_mod5 (l : List Char) :
    (finalNumericString l).length % 5 = 0 := by
  unfold finalNumericString adjustedString
  rw [List.length_map]
  by_cases h : l.length % 5 = 0
  · rw [if_pos h]; exact h
  · rw [if_neg h, adjustArray_length _ _ (Nat.mod_le _ _)]
    omega

/-- C2: when the digit string's length is not a multiple of 5, the trimming
performed by phase 6 (`adjustedString` followed by the `'X' → '0'`
replacement) is exactly Policy T2: drop placeholder characters preferentially,
scanning from the end, up to `r` of them, falling back to dropping real
trailing characters only for the shortfall, and then replace every remaining
placeholder with digit `0`. -/
theorem c2_digit_trim_policy (l : List Char) (h : l.length % 5 ≠ 0) :
    finalNumericString l = policyT2Final (l.length % 5) l := by
  unfold finalNumericString policyT2Final adjustedString
  rw [if_neg h, adjustArray_eq_policy]

theorem c2_witness :
    finalNumericString ("X12345".data)
      = policyT2Final (("X12345".data).length % 5) ("X12345".data) :=
  c2_digit_trim_policy ("X12345".data) (by decide)

/-- C1: the number of trailing bits trimmed from the assembled bit string is
computed from the padding descriptor's 1-based alphabet position `N` by
Strategy P1 (`q = floor(N/8)`; trim `0` when `N mod 8 = 0`, else `8-(q+1)`),
with `N = 5` giving trim 7. -/
theorem c1_padding_trim_strategy_p1 :
    (∀ N, charsToRemoveFromPayloadEnd N = strategyP1 N)
    ∧ strategyP1 5 = 7
    ∧ ∀ bits N, processedBinaryPayload bits (charsToRemoveFromPayloadEnd N)
        = bits.take (bits.length - strategyP1 N) := by
  exact ⟨fun N => rfl, rfl,
    fun bits N => processedBinaryPayload_eq_take bits (charsToRemoveFromPayloadEnd N)⟩

theorem all_isSome_iff_find?_none (l : List Char) :
    (l.all (fun c => (charIndexOf c).isSome) = true)
      ↔ l.find? (fun c => (charIndexOf c).isNone) = none := by
  rw [List.all_eq_true, List.find?_eq_none]
  constructor
  · intro h x hx
    have hs := h x hx
    cases hcx : charIndexOf x with
    | none => rw [hcx] at hs; simp at hs
    | some i => simp [hcx]
  · intro h x hx
    have hs := h x hx
    cases hcx : charIndexOf x with
    | none => rw [hcx] at hs; simp at hs
    | some i => simp [hcx]

theorem decode_isOk_eq (s : String) : isOkB (decode s) = formatValidB s := by
  simp only [decode, formatValidB]
  by_cases hm : s.data.take 4 = "KCG-".data
  · rw [if_pos hm]
    cases hd : s.data.drop 4 with
    | nil => simp [isOkB, hm]
    | cons c0 payload =>
      cases hf : (c0 :: payload).find? (fun c => (charIndexOf c).isNone) with
      | some c =>
        have hallf : (c0 :: payload).all (fun c => (charIndexOf c).isSome) = false := by
          rw [← Bool.not_eq_true, all_isSome_iff_find?_none, hf]
          simp
        simp [isOkB, hm, hf, hallf]
      | none =>
        have hall : (c0 :: payload).all (fun c => (charIndexOf c).isSome) = true := by
          rw [all_isSome_iff_find?_none, hf]
        simp [isOkB, hm, hf, hall, finalNumericString_length_mod5]
  · rw [if_neg hm]
    simp [isOkB, hm]

/-- C9: the digit string produced by phase 6 always has length a multiple of
5, so the `InvalidFormat` branch checking the final numeric string's length
in phase 7 is unreachable: `decode` never returns that error. -/
theorem c9_length_check_unreachable :
    (∀ l : List Char, (finalNumericString l).length % 5 = 0)
    ∧ ∀ s : String, decode s ≠ .error .badLength := by
  refine ⟨finalNumericString_length_mod5, fun s h => ?_⟩
  simp only [decode] at h
  by_cases hm : s.data.take 4 = "KCG-".data
  · rw [if_pos hm] at h
    cases hd : s.data.drop 4 with
    | nil => rw [hd] at h; simp at h
    | cons c0 payload =>
      rw [hd] at h
      cases hf : (c0 :: payload).find? (fun c => (charIndexOf c).isNone) with
      | some c => simp [hf] at h
      | none => simp [hf, finalNumericString_length_mod5] at h
  · rw [if_neg hm] at h
    simp at h

theorem c9_witness : decode "KCG-" ≠ .error .badLength :=
  c9_length_check_unreachable.2 "KCG-"

/-- C5: decoding fails (with one of the format errors) exactly when the
input does not start with `"KCG-"`, has an empty remainder, or contains a
character outside the 64-symbol alphabet; `"XYZZ"`, `"KCG-"` and `"KCG-@"`
all fail, the last naming the offending `'@'`. -/
theorem c5_format_validation :
    (∀ s, isOkB (decode s) = formatValidB s)
    ∧ decode "XYZZ" = .error .badMarker
    ∧ decode "KCG-" = .error .emptyPayload
    ∧ decode "KCG-@" = .error (.invalidChar '@') :=
  ⟨decode_isOk_eq, by rfl, by rfl, by rfl⟩

/-- C8: a format-valid input decodes successfully to the concatenation, in
chunk order, of each surviving fragment repeated `c5 % 5` times; a
format-valid input with zero surviving chunks gives a successful empty
sequence (`"KCG-5"`); a format-invalid input yields no partial result. -/
theorem c8_output_assembly :
    (∀ s, formatValidB s = true →
      decode s = .ok (((decodedEntries (finalNumericOf s)).map
        (fun e => List.replicate (e.2 % 5) e.1)).flatten))
    ∧ decode "KCG-5" = .ok []
    ∧ (∀ s l, formatValidB s = false → decode s ≠ .ok l) := by
  refine ⟨?_, by rfl, ?_⟩
  · intro s hv
    simp only [formatValidB, Bool.and_eq_true, decide_eq_true_eq] at hv
    obtain ⟨⟨hm, hne⟩, hall⟩ := hv
    simp only [decode]
    rw [if_pos hm]
    cases hd : s.data.drop 4 with
    | nil => rw [hd] at hne; simp at hne
    | cons c0 payload =>
      rw [hd] at hall
      have hf : (c0 :: payload).find? (fun c => (charIndexOf c).isNone) = none := by
        rw [← all_isSome_iff_find?_none]; exact hall
      simp only [finalNumericOf, payloadOf, descriptorIndexN, hd, deckListOutput]
      simp [hf, finalNumericString_length_mod5]
  · intro s l hv h
    have heq := decode_isOk_eq s
    rw [h, hv] at heq
    simp [isOkB] at heq

theorem c8_witness :
    decode "KCG-5" = .ok (((decodedEntries (finalNumericOf "KCG-5")).map
      (fun e => List.replicate (e.2 % 5) e.1)).flatten) :=
  c8_output_assembly.1 "KCG-5" (by rfl)

theorem indexOfAux_lt (c : Char) (l : List Char) (i j : Nat)
    (h : indexOfAux c l i = some j) : j < i + l.length := by
  induction l generalizing i with
  | nil => simp [indexOfAux] at h
  | cons x xs ih =>
    simp only [indexOfAux] at h
    by_cases hx : x = c
    · rw [if_pos hx] at h
      cases h
      simp
    · rw [if_neg hx] at h
      have := ih (i + 1) h
      simp only [List.length_cons]
      omega

theorem charIndexOf_lt (c : Char) (i : Nat) (h : charIndexOf c = some i) : i < 64 := by
  have hb := indexOfAux_lt c CHAR_MAP.data 0 i h
  have h64 : CHAR_MAP.data.length = 64 := by decide
  omega

theorem sixBits_length (c : Char) : (sixBits c).length = 6 := by
  have hvalid : ∀ i, i < 64 → (padStart6 (natToBase 2 i)).length = 6 := by decide
  unfold sixBits
  cases hcx : charIndexOf c with
  | some i => exact hvalid i (charIndexOf_lt c i hcx)
  | none => rfl

/-- C6: every payload character after the padding descriptor contributes its
alphabet position as a 6-bit zero-padded binary string, concatenated in input
order (so the assembled bit string has `6 ×` the payload length and each
valid character's block decodes back to its position); the last `trim` bits
are then removed, with an over-long trim yielding the empty bit string. -/
theorem c6_bit_assembly :
    (∀ c i, charIndexOf c = some i → (sixBits c).length = 6 ∧ binToNat (sixBits c) = i)
    ∧ (∀ payload : List Char, (initialBinaryPayload payload).length = 6 * payload.length)
    ∧ (∀ bits t, processedBinaryPayload bits t = bits.take (bits.length - t))
    ∧ (∀ bits t, bits.length < t → processedBinaryPayload bits t = []) := by
  have hvalid : ∀ i, i < 64 → binToNat (padStart6 (natToBase 2 i)) = i := by decide
  refine ⟨?_, ?_, processedBinaryPayload_eq_take, ?_⟩
  · intro c i h
    refine ⟨sixBits_length c, ?_⟩
    unfold sixBits
    rw [h]
    exact hvalid i (charIndexOf_lt c i h)
  · intro payload
    induction payload with
    | nil => rfl
    | cons c cs ih =>
      show (sixBits c ++ initialBinaryPayload cs).length = 6 * (cs.length + 1)
      rw [List.length_append, sixBits_length c, ih]
      ring
  · intro bits t hlt
    rw [processedBinaryPayload_eq_take]
    have h0 : bits.length - t = 0 := by omega
    rw [h0, List.take_zero]

theorem c6_witness :
    ((sixBits 'A').length = 6 ∧ binToNat (sixBits 'A') = 0)
    ∧ processedBinaryPayload ['0'] 2 = [] :=
  ⟨c6_bit_assembly.1 'A' 0 (by rfl), c6_bit_assembly.2.2.2 ['0'] 2 (by decide)⟩

theorem tenBitGroupsCore_congr (f : Nat) :
    ∀ (g : Nat) (l : List Char), l.length ≤ f → l.length ≤ g →
      tenBitGroupsCore f l = tenBitGroupsCore g l := by
  induction f with
  | zero =>
    intro g l hf _
    have h0 : l = [] := List.eq_nil_of_length_eq_zero (by omega)
    subst h0
    cases g <;> simp [tenBitGroupsCore]
  | succ f' ih =>
    intro g l hf hg
    cases g with
    | zero =>
      have h0 : l = [] := List.eq_nil_of_length_eq_zero (by omega)
      subst h0
      simp [tenBitGroupsCore]
    | succ g' =>
      simp only [tenBitGroupsCore]
      by_cases h10 : 10 ≤ l.length
      · rw [if_pos h10, if_pos h10]
        congr 1
        exact ih g' (l.drop 10) (by rw [List.length_drop]; omega)
          (by rw [List.length_drop]; omega)
      · rw [if_neg h10, if_neg h10]

theorem tenBitGroups_eq (l : List Char) :
    tenBitGroups l = if 10 ≤ l.length then l.take 10 :: tenBitGroups (l.drop 10) else [] := by
  unfold tenBitGroups
  by_cases h10 : 10 ≤ l.length
  · rw [if_pos h10]
    obtain ⟨L, hL⟩ : ∃ L, l.length = L + 1 := ⟨l.length - 1, by omega⟩
    rw [hL]
    simp only [tenBitGroupsCore]
    rw [if_pos h10]
    congr 1
    exact tenBitGroupsCore_congr L ((l.drop 10).length) (l.drop 10)
      (by rw [List.length_drop]; omega) (le_refl _)
  · rw [if_neg h10]
    cases hL : l.length with
    | zero =>
      have h0 : l = [] := List.eq_nil_of_length_eq_zero hL
      subst h0
      rfl
    | succ L =>
      simp only [tenBitGroupsCore]
      rw [if_neg h10]

theorem tenBitGroups_spec_aux :
    ∀ (n : Nat) (bits : List Char), bits.length ≤ n →
      (tenBitGroups bits).length = bits.length / 10
      ∧ ∀ i, i < bits.length / 10 →
          (tenBitGroups bits)[i]? = some ((bits.drop (10 * i)).take 10) := by
  intro n
  induction n with
  | zero =>
    intro bits h
    have h0 : bits = [] := List.eq_nil_of_length_eq_zero (by omega)
    subst h0
    exact ⟨rfl, by intro i hi; simp at hi⟩
  | succ n' ih =>
    intro bits h
    rw [tenBitGroups_eq]
    by_cases h10 : 10 ≤ bits.length
    · rw [if_pos h10]
      obtain ⟨hlen', hget'⟩ := ih (bits.drop 10) (by rw [List.length_drop]; omega)
      constructor
      · rw [List.length_cons, hlen', List.length_drop]
        omega
      · intro i hi
        cases i with
        | zero => simp
        | succ i' =>
          rw [List.getElem?_cons_succ, hget' i'
            (by rw [List.length_drop]; omega)]
          rw [List.drop_drop]
          have harith : 10 + 10 * i' = 10 * (i' + 1) := by ring
          rw [harith]
    · rw [if_neg h10]
      constructor
      · simp only [List.length_nil]
        omega
      · intro i hi
        omega

theorem natToBaseCore_len_pos (f n : Nat) (hn : 1 ≤ n) (hf : 1 ≤ f) :
    1 ≤ (natToBaseCore 10 f n).length := by
  obtain ⟨f', rfl⟩ : ∃ f', f = f' + 1 := ⟨f - 1, by omega⟩
  obtain ⟨n', rfl⟩ : ∃ n', n = n' + 1 := ⟨n - 1, by omega⟩
  show 1 ≤ (natToBaseCore 10 f' ((n' + 1) / 10) ++ [digitChar ((n' + 1) % 10)]).length
  rw [List.length_append]
  simp

theorem natToBaseCore_len_ge2 (f n : Nat) (hn : 10 ≤ n) (hf : n ≤ f) :
    2 ≤ (natToBaseCore 10 f n).length := by
  obtain ⟨f', rfl⟩ : ∃ f', f = f' + 1 := ⟨f - 1, by omega⟩
  obtain ⟨n', rfl⟩ : ∃ n', n = n' + 1 := ⟨n - 1, by omega⟩
  show 2 ≤ (natToBaseCore 10 f' ((n' + 1) / 10) ++ [digitChar ((n' + 1) % 10)]).length
  rw [List.length_append]
  have h1 : 1 ≤ (natToBaseCore 10 f' ((n' + 1) / 10)).length :=
    natToBaseCore_len_pos f' ((n' + 1) / 10) (by omega) (by omega)
  simp only [List.length_singleton]
  omega

theorem natToBaseCore_len_ge3 (f n : Nat) (hn : 100 ≤ n) (hf : n ≤ f) :
    3 ≤ (natToBaseCore 10 f n).length := by
  obtain ⟨f', rfl⟩ : ∃ f', f = f' + 1 := ⟨f - 1, by omega⟩
  obtain ⟨n', rfl⟩ : ∃ n', n = n' + 1 := ⟨n - 1, by omega⟩
  show 3 ≤ (natToBaseCore 10 f' ((n' + 1) / 10) ++ [digitChar ((n' + 1) % 10)]).length
  rw [List.length_append]
  have h2 : 2 ≤ (natToBaseCore 10 f' ((n' + 1) / 10)).length :=
    natToBaseCore_len_ge2 f' ((n' + 1) / 10) (by omega) (by omega)
  simp only [List.length_singleton]
  omega

theorem natToBase_len_pos (n : Nat) : 1 ≤ (natToBase 10 n).length := by
  unfold natToBase
  by_cases h : n = 0
  · simp [h]
  · rw [if_neg h]
    exact natToBaseCore_len_pos n n (by omega) (by omega)

theorem formattedNVal_len (n : Int) (hn : 0 ≤ n) : 3 ≤ (formattedNVal n).length := by
  unfold formattedNVal jsIntToString
  by_cases h1 : 0 ≤ n ∧ n < 10
  · rw [if_pos h1, if_neg (by omega : ¬ n < 0)]
    simp only [List.length_cons]
    have := natToBase_len_pos n.toNat
    omega
  · rw [if_neg h1]
    by_cases h2 : 10 ≤ n ∧ n < 100
    · rw [if_pos h2, if_neg (by omega : ¬ n < 0)]
      simp only [List.length_cons]
      unfold natToBase
      rw [if_neg (by omega : ¬ n.toNat = 0)]
      have h2' := natToBaseCore_len_ge2 n.toNat n.toNat (by omega) (le_refl _)
      omega
    · rw [if_neg h2, if_neg (by omega : ¬ n < 0)]
      unfold natToBase
      rw [if_neg (by omega : ¬ n.toNat = 0)]
      exact natToBaseCore_len_ge3 n.toNat n.toNat (by omega) (le_refl _)

theorem formattedNVal_neg (n : Int) (hn : n < 0) :
    formattedNVal n = '-' :: natToBase 10 n.natAbs := by
  unfold formattedNVal jsIntToString
  rw [if_neg (by omega : ¬ (0 ≤ n ∧ n < 10)), if_neg (by omega : ¬ (10 ≤ n ∧ n < 100)),
    if_pos hn]

/-- C4 counterexample: the 10-bit group `0111110101` (unsigned 501, leading
bit 0) yields `n = 500 - 501 = -1`, which falls in none of the classes
0–9 / 10–99 / ≥100 listed by the claim and renders as the 2-character token
`"-1"`, refuting the fixed-width 3-character rendering as stated. -/
theorem c4_counterexample :
    groupToken ("0111110101".data) = "-1".data
    ∧ (groupToken ("0111110101".data)).length = 2
    ∧ 500 - signedVal ("0111110101".data) < 0 :=
  ⟨by rfl, by rfl, by decide⟩

/-- C4 (amended): the trimmed bit string is consumed in consecutive
non-overlapping 10-bit groups with any final leftover shorter than 10 bits
discarded; a group with leading bit 1 decodes as unsigned−1024, otherwise as
its unsigned value; `n = 500 − v` is rendered with two placeholders for 0–9,
one for 10–99, and otherwise as its plain decimal string — at least 3
characters when `n ≥ 0`, but possibly fewer when `n` is negative; group
`1000000000` yields token `1012`. -/
theorem c4_ten_bit_group_decoding :
    (∀ bits : List Char, (tenBitGroups bits).length = bits.length / 10
      ∧ ∀ i, i < bits.length / 10 →
          (tenBitGroups bits)[i]? = some ((bits.drop (10 * i)).take 10))
    ∧ (∀ bits : List Char, intermediateString bits
        = ((tenBitGroups bits).map groupToken).flatten)
    ∧ (∀ n : Int, 0 ≤ n → 3 ≤ (formattedNVal n).length)
    ∧ (∀ n : Int, n < 0 → formattedNVal n = '-' :: natToBase 10 n.natAbs)
    ∧ groupToken ("1000000000".data) = "1012".data :=
  ⟨fun bits => tenBitGroups_spec_aux bits.length bits (le_refl _),
   fun _ => rfl, formattedNVal_len, formattedNVal_neg, by rfl⟩

theorem c4_witness :
    (tenBitGroups ("10000000001".data))[0]?
        = some ((("10000000001".data).drop (10 * 0)).take 10)
    ∧ 3 ≤ (formattedNVal 500).length
    ∧ formattedNVal (-1) = '-' :: natToBase 10 (Int.natAbs (-1)) :=
  ⟨(c4_ten_bit_group_decoding.1 ("10000000001".data)).2 0 (by decide),
   c4_ten_bit_group_decoding.2.2.1 500 (by decide),
   c4_ten_bit_group_decoding.2.2.2.1 (-1) (by decide)⟩

theorem digitChar_isDigit (d : Nat) (h : d ≤ 9) : (digitChar d).isDigit = true := by
  interval_cases d <;> decide

theorem digitChar_toNat (d : Nat) (h : d ≤ 9) : (digitChar d).toNat - 48 = d := by
  interval_cases d <;> decide

theorem parseAt_digit (l : List Char) (i d : Nat) (h : d ≤ 9)
    (hl : l[i]? = some (digitChar d)) : parseAt l i = some d := by
  unfold parseAt
  rw [hl]
  dsimp only
  rw [if_pos (digitChar_isDigit d h), digitChar_toNat d h]

set_option maxHeartbeats 1000000 in
theorem decodeChunk_digits (d1 d2 d3 d4 d5 : Nat)
    (h1 : d1 ≤ 9) (h2 : d2 ≤ 9) (h3 : d3 ≤ 9) (h4 : d4 ≤ 9) (h5 : d5 ≤ 9) :
    decodeChunk [digitChar d1, digitChar d2, digitChar d3, digitChar d4, digitChar d5]
      = chunkSpec d1 d2 d3 d4 d5 := by
  have p0 : parseAt [digitChar d1, digitChar d2, digitChar d3, digitChar d4, digitChar d5] 0
      = some d1 := parseAt_digit _ _ _ h1 (by simp)
  have p1 : parseAt [digitChar d1, digitChar d2, digitChar d3, digitChar d4, digitChar d5] 1
      = some d2 := parseAt_digit _ _ _ h2 (by simp)
  have p2 : parseAt [digitChar d1, digitChar d2, digitChar d3, digitChar d4, digitChar d5] 2
      = some d3 := parseAt_digit _ _ _ h3 (by simp)
  have p3 : parseAt [digitChar d1, digitChar d2, digitChar d3, digitChar d4, digitChar d5] 3
      = some d4 := parseAt_digit _ _ _ h4 (by simp)
  have p4 : parseAt [digitChar d1, digitChar d2, digitChar d3, digitChar d4, digitChar d5] 4
      = some d5 := parseAt_digit _ _ _ h5 (by simp)
  simp only [decodeChunk, chunkSpec, p0, p1, p2, p3, p4]
  rcases htbl : (if 1 ≤ d5 ∧ d5 ≤ 4 then some MAP1_EXPANSION
      else if 6 ≤ d5 ∧ d5 ≤ 9 then some MAP2_EXPANSION else none) with _ | tbl
  · rfl
  · have htbl10 : tbl.length = 10 := by
      by_cases hA : 1 ≤ d5 ∧ d5 ≤ 4
      · rw [if_pos hA] at htbl
        injection htbl with hEq
        subst hEq
        decide
      · rw [if_neg hA] at htbl
        by_cases hB : 6 ≤ d5 ∧ d5 ≤ 9
        · rw [if_pos hB] at htbl
          injection htbl with hEq
          subst hEq
          decide
        · rw [if_neg hB] at htbl
          cases htbl
    have hge : jsGe (some d1) tbl.length = false := by
      unfold jsGe
      rw [htbl10, decide_eq_false_iff_not]
      omega
    have hd10 : tbl.data.length = 10 := htbl10
    dsimp only
    rcases hsym : tbl.data[d1]? with _ | sym
    · exfalso
      rw [List.getElem?_eq_none_iff] at hsym
      omega
    · simp only [hge, Bool.false_eq_true, if_false]
      rcases hty : (if d2 = 1 then some "A" else if d2 = 2 then some "S"
          else if d2 = 3 then some "M" else if d2 = 4 then some "D" else none) with _ | t
      · rfl
      · dsimp only
        by_cases hn : 1 ≤ d3 * 10 + d4 ∧ d3 * 10 + d4 ≤ 50
        · have hsk : (decide (d3 * 10 + d4 < 1) || decide (d3 * 10 + d4 > 50)) = false := by
            rw [Bool.or_eq_false_iff, decide_eq_false_iff_not, decide_eq_false_iff_not]
            omega
          rw [if_pos hn]
          simp only [hsk, Bool.false_eq_true, if_false]
        · have hsk : (decide (d3 * 10 + d4 < 1) || decide (d3 * 10 + d4 > 50)) = true := by
            rw [Bool.or_eq_true, decide_eq_true_eq, decide_eq_true_eq]
            omega
          rw [if_neg hn]
          simp only [hsk, if_true]

/-- C3: for every 5-digit chunk `c1 c2 c3 c4 c5`, `c5` in 1–4 selects Table A
and in 6–9 Table B (any other value drops the chunk with no error); the
selected table's symbol at index `c1` yields the set code, `'e'` mapping to
`"ex"`, `'p'` to `"prm"` and others used literally; `c2` maps 1→A, 2→S, 3→M,
4→D (others drop); the number `c3*10+c4` must lie in [1,50] (else drop); a
surviving chunk carries fragment `set ++ type ++ "-" ++ number` with repeat
count `c5 % 5`; `"41371"` yields `("DA-37", 1)` and `"26097"` is dropped. -/
theorem c3_chunk_expansion :
    (∀ d1 d2 d3 d4 d5 : Nat, d1 ≤ 9 → d2 ≤ 9 → d3 ≤ 9 → d4 ≤ 9 → d5 ≤ 9 →
      decodeChunk [digitChar d1, digitChar d2, digitChar d3, digitChar d4, digitChar d5]
        = chunkSpec d1 d2 d3 d4 d5)
    ∧ (∀ (frag : String) (v : Nat),
        deckListOutput [(frag, v)] = List.replicate (v % 5) frag)
    ∧ decodeChunk "41371".data = some ("DA-37", 1)
    ∧ decodeChunk "26097".data = none :=
  ⟨decodeChunk_digits, fun frag v => by simp [deckListOutput], by rfl, by rfl⟩

theorem c3_witness :
    decodeChunk [digitChar 4, digitChar 1, digitChar 3, digitChar 7, digitChar 1]
      = chunkSpec 4 1 3 7 1 :=
  c3_chunk_expansion.1 4 1 3 7 1 (by decide) (by decide) (by decide) (by decide) (by decide)

/-- C7 fails on the code: the format-valid deck code `KCG-D8qjC` decodes
successfully to the single entry `"undefinedA-13"`, which does not match the
card-identifier grammar.  The payload's bit string contains the 10-bit group
`0111110101` (unsigned 501), whose token `"-1"` puts a `'-'` into the digit
string; `parseInt('-')` is `NaN`, which slips past both the `c1` bounds
check and the number range check, so the chunk survives with an
`undefined`-interpolated set code instead of being skipped. -/
theorem c7_grammar_violated :
    decode "KCG-D8qjC" = .ok ["undefinedA-13"]
    ∧ matchesCardIdRe "undefinedA-13" = false :=
  ⟨by rfl, by rfl⟩

theorem isDigit_toNat_bounds (c : Char) (h : c.isDigit = true) :
    48 ≤ c.toNat ∧ c.toNat ≤ 57 := by
  unfold Char.isDigit at h
  rw [Bool.and_eq_true, decide_eq_true_eq, decide_eq_true_eq] at h
  obtain ⟨h1, h2⟩ := h
  exact ⟨h1, h2⟩

theorem natToBaseCore_digits (f : Nat) :
    ∀ (n : Nat) (c : Char), c ∈ natToBaseCore 10 f n → c.isDigit = true := by
  induction f with
  | zero =>
    intro n c hc
    cases n <;> simp [natToBaseCore] at hc
  | succ f' ih =>
    intro n c hc
    cases n with
    | zero => simp [natToBaseCore] at hc
    | succ n' =>
      rw [show natToBaseCore 10 (f' + 1) (n' + 1)
          = natToBaseCore 10 f' ((n' + 1) / 10) ++ [digitChar ((n' + 1) % 10)] from rfl,
        List.mem_append] at hc
      rcases hc with hc | hc
      · exact ih _ _ hc
      · rw [List.mem_singleton] at hc
        subst hc
        exact digitChar_isDigit _ (by omega)

theorem natToBase_digits (n : Nat) (c : Char) (hc : c ∈ natToBase 10 n) :
    c.isDigit = true := by
  unfold natToBase at hc
  by_cases h : n = 0
  · rw [if_pos h, List.mem_singleton] at hc
    subst hc
    decide
  · rw [if_neg h] at hc
    exact natToBaseCore_digits n n c hc

theorem jsIntToString_chars (n : Int) (c : Char) (hc : c ∈ jsIntToString n) :
    c.isDigit = true ∨ c = '-' := by
  unfold jsIntToString at hc
  by_cases h : n < 0
  · rw [if_pos h] at hc
    rcases List.mem_cons.mp hc with rfl | hc
    · exact Or.inr rfl
    · exact Or.inl (natToBase_digits _ _ hc)
  · rw [if_neg h] at hc
    exact Or.inl (natToBase_digits _ _ hc)

theorem formattedNVal_chars (n : Int) (c : Char) (hc : c ∈ formattedNVal n) :
    c.isDigit = true ∨ c = '-' ∨ c = 'X' := by
  unfold formattedNVal at hc
  split at hc
  · rcases List.mem_cons.mp hc with rfl | hc
    · exact Or.inr (Or.inr rfl)
    · rcases List.mem_cons.mp hc with rfl | hc
      · exact Or.inr (Or.inr rfl)
      · rcases jsIntToString_chars _ _ hc with h | h
        · exact Or.inl h
        · exact Or.inr (Or.inl h)
  · split at hc
    · rcases List.mem_cons.mp hc with rfl | hc
      · exact Or.inr (Or.inr rfl)
      · rcases jsIntToString_chars _ _ hc with h | h
        · exact Or.inl h
        · exact Or.inr (Or.inl h)
    · rcases jsIntToString_chars _ _ hc with h | h
      · exact Or.inl h
      · exact Or.inr (Or.inl h)

theorem intermediateString_chars (bits : List Char) (c : Char)
    (hc : c ∈ intermediateString bits) : c.isDigit = true ∨ c = '-' ∨ c = 'X' := by
  unfold intermediateString at hc
  rw [List.mem_flatten] at hc
  obtain ⟨tok, htok, hctok⟩ := hc
  rw [List.mem_map] at htok
  obtain ⟨g, _, rfl⟩ := htok
  exact formattedNVal_chars _ _ hctok

theorem removeUpToXs_subset (k : Nat) (l : List Char) (c : Char)
    (hc : c ∈ removeUpToXs k l) : c ∈ l := by
  induction l generalizing k with
  | nil => cases k <;> simp [removeUpToXs] at hc
  | cons x xs ih =>
    cases k with
    | zero => exact hc
    | succ k' =>
      by_cases hx : x = 'X'
      · subst hx
        have e1 : removeUpToXs (k' + 1) ('X' :: xs) = removeUpToXs k' xs := by
          simp [removeUpToXs]
        rw [e1] at hc
        exact List.mem_cons_of_mem _ (ih k' hc)
      · have e1 : removeUpToXs (k' + 1) (x :: xs) = x :: removeUpToXs (k' + 1) xs := by
          simp [removeUpToXs, hx]
        rw [e1] at hc
        rcases List.mem_cons.mp hc with rfl | hc
        · exact List.mem_cons_self _ _
        · exact List.mem_cons_of_mem _ (ih (k' + 1) hc)

theorem adjustedString_subset (l : List Char) (x : Char) (hx : x ∈ adjustedString l) :
    x ∈ l := by
  unfold adjustedString at hx
  split at hx
  · exact hx
  · simp only [adjustArray] at hx
    rw [List.mem_reverse] at hx
    have h1 : x ∈ removeUpToXs (l.length % 5) l.reverse := List.mem_of_mem_drop hx
    have h2 := removeUpToXs_subset _ _ _ h1
    rw [List.mem_reverse] at h2
    exact h2

theorem finalNumericString_chars (l : List Char) (c : Char)
    (hcl : ∀ x, x ∈ l → (x.isDigit = true ∨ x = '-' ∨ x = 'X'))
    (hc : c ∈ finalNumericString l) : c.isDigit = true ∨ c = '-' := by
  unfold finalNumericString at hc
  rw [List.mem_map] at hc
  obtain ⟨x, hx, rfl⟩ := hc
  have hxl := adjustedString_subset l x hx
  rcases hcl x hxl with h | h | h
  · have hxX : ¬ x = 'X' := by
      intro hxx
      subst hxx
      exact absurd h (by decide)
    rw [if_neg hxX]
    exact Or.inl h
  · subst h
    rw [if_neg (by decide)]
    exact Or.inr rfl
  · subst h
    rw [if_pos rfl]
    exact Or.inl (by decide)

theorem fiveChunksCore_subset (f : Nat) :
    ∀ (l chunk : List Char), chunk ∈ fiveChunksCore f l → ∀ c ∈ chunk, c ∈ l := by
  induction f with
  | zero =>
    intro l chunk h
    simp [fiveChunksCore] at h
  | succ f' ih =>
    intro l chunk h c hc
    cases l with
    | nil => simp [fiveChunksCore] at h
    | cons x xs =>
      rw [show fiveChunksCore (f' + 1) (x :: xs)
          = ((x :: xs).take 5) :: fiveChunksCore f' ((x :: xs).drop 5) from rfl] at h
      rcases List.mem_cons.mp h with rfl | h
      · exact List.take_subset _ _ hc
      · exact List.drop_subset _ _ (ih _ _ h c hc)

/-- C10: both expansion tables have exactly 10 entries and, for every chunk
of any final numeric string, the first character parses either to a decimal
digit 0–9 — always below the table length — or (for `'-'`) to `NaN`, for
which the JavaScript bounds comparison is also false; so the out-of-range
`c1` skip in the chunk decoder never fires. -/
theorem c10_c1_guard_dead :
    MAP1_EXPANSION.length = 10 ∧ MAP2_EXPANSION.length = 10
    ∧ ∀ (bits chunk : List Char),
        chunk ∈ fiveChunks (finalNumericString (intermediateString bits)) →
        jsGe (parseAt chunk 0) MAP1_EXPANSION.length = false
        ∧ jsGe (parseAt chunk 0) MAP2_EXPANSION.length = false := by
  refine ⟨by decide, by decide, ?_⟩
  intro bits chunk hchunk
  have hsub : ∀ c ∈ chunk, c ∈ finalNumericString (intermediateString bits) :=
    fiveChunksCore_subset _ _ _ hchunk
  have key : jsGe (parseAt chunk 0) 10 = false := by
    unfold parseAt
    cases h0 : chunk[0]? with
    | none => rfl
    | some c =>
      have hcc : c ∈ chunk := by
        rw [List.getElem?_eq_some_iff] at h0
        obtain ⟨hlt, rfl⟩ := h0
        exact List.getElem_mem hlt
      dsimp only
      rcases finalNumericString_chars _ c
          (fun x hx => intermediateString_chars bits x hx) (hsub c hcc) with h | h
      · rw [if_pos h]
        unfold jsGe
        rw [decide_eq_false_iff_not]
        have := isDigit_toNat_bounds c h
        omega
      · subst h
        rw [if_neg (by decide)]
        rfl
  exact ⟨key, key⟩

theorem c10_witness :
    jsGe (parseAt ("50050".data) 0) MAP1_EXPANSION.length = false
    ∧ jsGe (parseAt ("50050".data) 0) MAP2_EXPANSION.length = false :=
  (c10_c1_guard_dead.2.2 (List.replicate 50 '0') ("50050".data) (by decide))

end KCG
